import Mathlib

/-!
Verification of the relevance-scoring and recurrence pipeline of the
`updater-for-LLM-tech` repository, shallowly embedded in Lean 4.

The embedding covers:
* `src/filters/keyword_filter.py` — keyword scoring (`score_text`,
  `filter_items`), with Python's `re` word-boundary / case-insensitive
  term matching modelled over `List Char`, float arithmetic modelled over
  `ℝ` (with `Real.sqrt` for `** 0.5`) and `round(x, 2)` modelled as
  rounding to a rational with denominator 100;
* `src/state/dedup.py` — the dedup store (`is_seen`, `mark_seen`,
  `filter_unseen`, `save`/`_prune`); the JSON dict keyed by source is an
  association list, and ISO-8601 UTC timestamp strings (whose
  lexicographic order coincides with chronological order) are modelled
  as integer seconds since an epoch;
* `src/modules/weekly_summary/aggregator.py` — the daily-issue parser
  (`_parse_issue_body`, regexes translated to executable `List Char`
  matchers) and the merge step of `aggregate_weekly`;
* `src/modules/weekly_summary/ranker.py` — `rank_items`; Python's
  stable `sorted(..., reverse=True)` on a key tuple is modelled by
  `List.mergeSort` (stable) with the reversed lexicographic order.
-/

namespace Updater

/-! ## Python string primitives over `List Char` -/

/-- Python `str.split(sep)` for a one-character separator: splitting never
returns the empty list, and adjacent separators yield empty fields. -/
def splitOnChar (sep : Char) : List Char → List (List Char)
  | [] => [[]]
  | c :: cs =>
      let r := splitOnChar sep cs
      if c == sep then [] :: r
      else (c :: r.headD []) :: r.tail

/-! ## Dedup store (`src/state/dedup.py`)

`DedupStore._data` is a JSON object mapping a source-bucket name to a list
of `{"id": ..., "seen_at": ...}` records.  We model it as an association
list of buckets and a record as `SeenEntry`; `seen_at` ISO strings become
integer seconds (for well-formed ISO-8601 UTC strings of the fixed format
produced by `datetime.isoformat()`, lexicographic string comparison agrees
with integer comparison of the instants). -/

structure SeenEntry where
  id : String
  seen_at : Int
deriving DecidableEq, Repr

/-- The in-memory store `self._data`. -/
abbrev Store := List (String × List SeenEntry)

/-- `unique_id.split(":")[0]`. -/
def sourceOf (uid : String) : String :=
  ((splitOnChar ':' uid.toList).headD []).asString

/-- `DedupStore.is_seen`: look up the bucket named by the id's source
(first matching key, an absent key giving `[]`) and test membership. -/
def isSeen (s : Store) (uid : String) : Bool :=
  match List.lookup (sourceOf uid) s with
  | some es => es.any (fun e => e.id == uid)
  | none => false

/-- `if source not in self._data: self._data[source] = []` — Python dict
insertion appends the new key after the existing ones. -/
def ensureBucket (s : Store) (src : String) : Store :=
  if (List.lookup src s).isSome then s else s ++ [(src, [])]

/-- Apply `f` to the (first) bucket with the given key, as mutating a
Python dict entry does. -/
def updateBucket (src : String) (f : List SeenEntry → List SeenEntry) :
    List (String × List SeenEntry) → List (String × List SeenEntry)
  | [] => []
  | (k, v) :: rest =>
      if k == src then (k, f v) :: rest else (k, v) :: updateBucket src f rest

/-- `DedupStore.mark_seen`: ensure the bucket exists, then append a fresh
record unless the id is already seen. `now` stands for
`datetime.now(timezone.utc)`. -/
def markSeen (s : Store) (uid : String) (now : Int) : Store :=
  let src := sourceOf uid
  let s1 := ensureBucket s src
  if isSeen s1 uid then s1
  else updateBucket src (fun es => es ++ [⟨uid, now⟩]) s1

/-- An item as `filter_unseen` sees it: anything with a `unique_id`
property (the payload keeps distinct items distinguishable). -/
structure DItem where
  unique_id : String
  payload : String := ""
deriving DecidableEq, Repr

/-- `DedupStore.filter_unseen`: check-then-mark in input order, returning
the unseen items and the updated store. -/
def filterUnseen (s : Store) (items : List DItem) (now : Int) :
    List DItem × Store :=
  match items with
  | [] => ([], s)
  | it :: rest =>
      if isSeen s it.unique_id then filterUnseen s rest now
      else
        let s' := markSeen s it.unique_id now
        let p := filterUnseen s' rest now
        (it :: p.1, p.2)

/-- `DedupStore._prune`: per bucket, keep the records with
`seen_at > cutoff` (the code compares ISO strings; on our integer model
this is `<` on instants). -/
def pruneStore (s : Store) (cutoff : Int) : Store :=
  s.map (fun b => (b.1, b.2.filter (fun e => decide (cutoff < e.seen_at))))

/-- One day in seconds, `timedelta(days=1)`. -/
def daySeconds : Int := 86400

/-- The state `DedupStore.save` persists: `_prune` runs first with
`cutoff = now - timedelta(days=retention_days)`. -/
def saveStore (s : Store) (now retention_days : Int) : Store :=
  pruneStore s (now - retention_days * daySeconds)

/-- The per-bucket invariant of the spec: each uniqueID appears at most
once inside a bucket. -/
def BucketsOk (s : Store) : Prop :=
  ∀ b ∈ s, (b.2.map SeenEntry.id).Nodup

instance : DecidablePred BucketsOk := fun s =>
  inferInstanceAs (Decidable (∀ b ∈ s, (b.2.map SeenEntry.id).Nodup))

/-- A dedup-store operation, for stating preservation over arbitrary
operation sequences. -/
inductive DedupOp where
  | mark (uid : String) (now : Int)
  | filt (items : List DItem) (now : Int)

/-- Run one operation against the store. -/
def applyOp (s : Store) : DedupOp → Store
  | DedupOp.mark uid now => markSeen s uid now
  | DedupOp.filt items now => (filterUnseen s items now).2

/-! ### Dedup store lemmas -/

theorem lookup_updateBucket (k src : String) (f : List SeenEntry → List SeenEntry)
    (s : List (String × List SeenEntry)) :
    List.lookup k (updateBucket src f s) =
      if k = src then (List.lookup src s).map f else List.lookup k s := by
  induction s with
  | nil => simp [updateBucket]
  | cons b rest ih =>
      obtain ⟨bk, bv⟩ := b
      by_cases hks : k = src
      · subst hks
        by_cases hbk : bk = k
        · subst hbk
          simp [updateBucket, List.lookup_cons]
        · have hbk' : (bk == k) = false := by simp [hbk]
          have hkb : (k == bk) = false := by
            simp
            exact fun h => hbk h.symm
          simp [updateBucket, List.lookup_cons, hbk', hkb, ih]
      · by_cases hbk : bk = src
        · subst hbk
          have hkb : (k == bk) = false := by simp [hks]
          simp [updateBucket, List.lookup_cons, hkb, hks]
        · have hbk' : (bk == src) = false := by simp [hbk]
          simp [updateBucket, List.lookup_cons, hbk', ih, hks]

theorem lookup_ensureBucket (k src : String) (s : Store) :
    List.lookup k (ensureBucket s src) =
      if k = src then some ((List.lookup src s).getD []) else List.lookup k s := by
  unfold ensureBucket
  by_cases hsome : (List.lookup src s).isSome
  · obtain ⟨es, hes⟩ := Option.isSome_iff_exists.mp hsome
    by_cases hks : k = src
    · subst hks
      simp [hsome, hes]
    · simp [hsome, hks]
  · have hnone : List.lookup src s = none := Option.not_isSome_iff_eq_none.mp hsome
    by_cases hks : k = src
    · subst hks
      simp [hsome, List.lookup_append, hnone, List.lookup_cons]
    · have : (k == src) = false := by simp [hks]
      simp [hsome, List.lookup_append, hks, List.lookup_cons, this]

theorem isSeen_ensureBucket (s : Store) (src uid : String) :
    isSeen (ensureBucket s src) uid = isSeen s uid := by
  unfold isSeen
  rw [lookup_ensureBucket]
  by_cases h : sourceOf uid = src
  · subst h
    cases hlk : List.lookup (sourceOf uid) s with
    | none => simp [hlk]
    | some es => simp [hlk]
  · simp [h]

theorem isSeen_markSeen_self (s : Store) (uid : String) (now : Int) :
    isSeen (markSeen s uid now) uid = true := by
  unfold markSeen
  by_cases hseen : isSeen (ensureBucket s (sourceOf uid)) uid
  · simp [hseen]
  · simp only [hseen, if_false, Bool.false_eq_true]
    unfold isSeen
    rw [lookup_updateBucket]
    rw [lookup_ensureBucket]
    simp [List.any_append]

theorem isSeen_updateAppend (s : List (String × List SeenEntry)) (src uid : String)
    (e : SeenEntry) :
    isSeen s uid = true → isSeen (updateBucket src (fun es => es ++ [e]) s) uid = true := by
  intro h
  unfold isSeen at h ⊢
  rw [lookup_updateBucket]
  by_cases hs : sourceOf uid = src
  · subst hs
    cases hlk : List.lookup (sourceOf uid) s with
    | none => rw [hlk] at h; exact absurd h (by simp)
    | some es =>
        rw [hlk] at h
        simp only at h
        rw [if_pos rfl]
        show ((es ++ [e]).any fun x => x.id == uid) = true
        rw [List.any_append, h]
        rfl
  · rw [if_neg hs]
    exact h

theorem isSeen_mono_mark (s : Store) (u u' : String) (t : Int) :
    isSeen s u = true → isSeen (markSeen s u' t) u = true := by
  intro h
  unfold markSeen
  have hens := isSeen_ensureBucket s (sourceOf u') u
  by_cases hseen : isSeen (ensureBucket s (sourceOf u')) u'
  · simpa [hseen, hens] using h
  · simp only [hseen, if_false, Bool.false_eq_true]
    exact isSeen_updateAppend _ _ _ _ (by rw [hens]; exact h)

theorem isSeen_mono_filter (s : Store) (items : List DItem) (now : Int) (u : String) :
    isSeen s u = true → isSeen (filterUnseen s items now).2 u = true := by
  induction items generalizing s with
  | nil => intro h; simpa [filterUnseen] using h
  | cons it rest ih =>
      intro h
      by_cases hseen : isSeen s it.unique_id
      · simpa [filterUnseen, hseen] using ih s h
      · simpa [filterUnseen, hseen] using
          ih (markSeen s it.unique_id now) (isSeen_mono_mark s u it.unique_id now h)

theorem allSeen_filterUnseen (s : Store) (items : List DItem) (now : Int) :
    ∀ it ∈ items, isSeen (filterUnseen s items now).2 it.unique_id = true := by
  induction items generalizing s with
  | nil => intro it h; cases h
  | cons hd rest ih =>
      intro it hmem
      by_cases hseen : isSeen s hd.unique_id
      · rcases List.mem_cons.mp hmem with h | h
        · subst h
          simpa [filterUnseen, hseen] using isSeen_mono_filter s rest now it.unique_id hseen
        · simpa [filterUnseen, hseen] using ih s it h
      · rcases List.mem_cons.mp hmem with h | h
        · subst h
          have hmark := isSeen_markSeen_self s it.unique_id now
          simpa [filterUnseen, hseen] using
            isSeen_mono_filter (markSeen s it.unique_id now) rest now it.unique_id hmark
        · simpa [filterUnseen, hseen] using ih (markSeen s hd.unique_id now) it h

theorem filterUnseen_of_allSeen (s : Store) (items : List DItem) (now : Int) :
    (∀ it ∈ items, isSeen s it.unique_id = true) → filterUnseen s items now = ([], s) := by
  induction items with
  | nil => intro _; rfl
  | cons hd rest ih =>
      intro h
      have hhd : isSeen s hd.unique_id = true := h hd (List.mem_cons_self _ _)
      have hrest := ih fun it hit => h it (List.mem_cons_of_mem _ hit)
      simp [filterUnseen, hhd, hrest]

theorem unseen_of_mem_filterUnseen (s : Store) (items : List DItem) (now : Int) :
    ∀ it ∈ (filterUnseen s items now).1, isSeen s it.unique_id = false := by
  induction items generalizing s with
  | nil => intro it h; simp [filterUnseen] at h
  | cons hd rest ih =>
      intro it hmem
      by_cases hseen : isSeen s hd.unique_id
      · simp only [filterUnseen, hseen, if_true] at hmem
        exact ih s it hmem
      · simp only [filterUnseen, hseen, Bool.false_eq_true, if_false] at hmem
        rcases List.mem_cons.mp hmem with h | h
        · subst h
          simpa using hseen
        · have h' := ih (markSeen s hd.unique_id now) it h
          by_contra hcon
          have : isSeen s it.unique_id = true := by
            cases hval : isSeen s it.unique_id with
            | false => exact absurd hval hcon
            | true => rfl
          have := isSeen_mono_mark s it.unique_id hd.unique_id now this
          rw [this] at h'
          cases h'

theorem nodup_filterUnseen (s : Store) (items : List DItem) (now : Int) :
    ((filterUnseen s items now).1.map DItem.unique_id).Nodup := by
  induction items generalizing s with
  | nil => simp [filterUnseen]
  | cons hd rest ih =>
      by_cases hseen : isSeen s hd.unique_id
      · simpa [filterUnseen, hseen] using ih s
      · simp only [filterUnseen, hseen, Bool.false_eq_true, if_false, List.map_cons,
          List.nodup_cons]
        constructor
        · intro hmem
          obtain ⟨it, hit, huid⟩ := List.mem_map.mp hmem
          have hunseen := unseen_of_mem_filterUnseen (markSeen s hd.unique_id now) rest now it hit
          have hmark := isSeen_markSeen_self s hd.unique_id now
          rw [huid] at hunseen
          rw [hmark] at hunseen
          cases hunseen
        · exact ih (markSeen s hd.unique_id now)

/-! ### Dedup theorems: C3, C4, C9 -/

/-- **C3.** After `save()` every record (strictly) older than
`retention_days` relative to the current time is absent from every
bucket; a record one second younger than the retention boundary (its
`seen_at` is `cutoff + 1`) survives in its bucket, and one a second
older than the boundary (`cutoff - 1`) is pruned.  Here
`cutoff = now - retention_days` in seconds, matching
`datetime.now(timezone.utc) - timedelta(days=retention_days)`. -/
theorem save_prunes_by_retention (s : Store) (now rd : Int) :
    (∀ e : SeenEntry, e.seen_at < now - rd * daySeconds →
      ∀ b ∈ saveStore s now rd, e ∉ b.2) ∧
    (∀ b ∈ s, ∀ e ∈ b.2, e.seen_at = now - rd * daySeconds + 1 →
      ∃ b' ∈ saveStore s now rd, b'.1 = b.1 ∧ e ∈ b'.2) ∧
    (∀ b ∈ s, ∀ e ∈ b.2, e.seen_at = now - rd * daySeconds - 1 →
      ∀ b' ∈ saveStore s now rd, e ∉ b'.2) := by
  refine ⟨?_, ?_, ?_⟩
  · intro e he b hb hmem
    unfold saveStore pruneStore at hb
    obtain ⟨b0, _, hb0⟩ := List.mem_map.mp hb
    rw [← hb0] at hmem
    have := (List.mem_filter.mp hmem).2
    rw [decide_eq_true_eq] at this
    omega
  · intro b hb e he heq
    refine ⟨(b.1, b.2.filter (fun e => decide (now - rd * daySeconds < e.seen_at))), ?_, rfl, ?_⟩
    · unfold saveStore pruneStore
      exact List.mem_map.mpr ⟨b, hb, rfl⟩
    · exact List.mem_filter.mpr ⟨he, by rw [decide_eq_true_eq]; omega⟩
  · intro b hb e he heq b' hb' hmem
    unfold saveStore pruneStore at hb'
    obtain ⟨b0, _, hb0⟩ := List.mem_map.mp hb'
    rw [← hb0] at hmem
    have := (List.mem_filter.mp hmem).2
    rw [decide_eq_true_eq] at this
    omega

/-- Witness for C3 at a concrete store: a record 1 second inside the
retention window survives, one 1 second outside is pruned. -/
theorem save_prunes_by_retention_witness :
    (∀ b ∈ saveStore [("arxiv", [⟨"arxiv:1", -2⟩, ⟨"arxiv:2", 1⟩])] 86400 1,
      (⟨"arxiv:1", -2⟩ : SeenEntry) ∉ b.2) ∧
    (∃ b' ∈ saveStore [("arxiv", [⟨"arxiv:1", -2⟩, ⟨"arxiv:2", 1⟩])] 86400 1,
      b'.1 = "arxiv" ∧ (⟨"arxiv:2", 1⟩ : SeenEntry) ∈ b'.2) := by
  constructor
  · exact (save_prunes_by_retention
      [("arxiv", [⟨"arxiv:1", -2⟩, ⟨"arxiv:2", 1⟩])] 86400 1).1
      ⟨"arxiv:1", -2⟩ (by norm_num [daySeconds])
  · have h := (save_prunes_by_retention
      [("arxiv", [⟨"arxiv:1", -2⟩, ⟨"arxiv:2", 1⟩])] 86400 1).2.1
      ("arxiv", [⟨"arxiv:1", -2⟩, ⟨"arxiv:2", 1⟩]) (by decide)
      ⟨"arxiv:2", 1⟩ (by decide) (by norm_num [daySeconds])
    simpa using h

/-- Marking one id never changes whether a DIFFERENT id is seen: the
appended record's `id` fails every `e.get("id") == unique_id` test for
another id. -/
theorem isSeen_markSeen_other (s : Store) (u u' : String) (t : Int) (hne : u' ≠ u) :
    isSeen (markSeen s u t) u' = isSeen s u' := by
  unfold markSeen
  have hens := isSeen_ensureBucket s (sourceOf u) u'
  by_cases hseen : isSeen (ensureBucket s (sourceOf u)) u
  · simpa [hseen] using hens
  · simp only [hseen, if_false, Bool.false_eq_true]
    rw [← hens]
    generalize ensureBucket s (sourceOf u) = s1
    unfold isSeen
    rw [lookup_updateBucket]
    by_cases hsrc : sourceOf u' = sourceOf u
    · rw [if_pos hsrc, hsrc]
      cases hlk : List.lookup (sourceOf u) s1 with
      | none => rfl
      | some es =>
          show ((es ++ [(⟨u, t⟩ : SeenEntry)]).any fun e => e.id == u')
            = es.any fun e => e.id == u'
          rw [List.any_append]
          have : ((⟨u, t⟩ : SeenEntry).id == u') = false := by
            simp
            exact fun h => hne h.symm
          simp [this]
    · rw [if_neg hsrc]

/-- Modelled from the claim's words for C4: go through the items in
order and keep exactly those whose uniqueID neither satisfies the
initial seen-predicate `p` nor equals the uniqueID of an earlier KEPT
item — so of several items sharing a uniqueID only the first survives. -/
def keepFirstUnseen (p : String → Bool) (kept : List String) :
    List DItem → List DItem
  | [] => []
  | it :: rest =>
      if p it.unique_id || kept.contains it.unique_id then keepFirstUnseen p kept rest
      else it :: keepFirstUnseen p (it.unique_id :: kept) rest

theorem filterUnseen_keepFirsts (items : List DItem) (s : Store) (p : String → Bool)
    (kept : List String) (now : Int)
    (h : ∀ u, isSeen s u = (p u || kept.contains u)) :
    (filterUnseen s items now).1 = keepFirstUnseen p kept items := by
  induction items generalizing s kept with
  | nil => rfl
  | cons it rest ih =>
      by_cases hseen : isSeen s it.unique_id
      · have hcond : (p it.unique_id || kept.contains it.unique_id) = true := by
          rw [← h]
          exact hseen
        unfold filterUnseen keepFirstUnseen
        rw [if_pos hseen, if_pos hcond]
        exact ih s kept h
      · have hcond : (p it.unique_id || kept.contains it.unique_id) = false := by
          rw [← h]
          exact Bool.not_eq_true _ ▸ (by simpa using hseen)
        unfold filterUnseen keepFirstUnseen
        rw [if_neg hseen, if_neg (by rw [hcond]; simp)]
        dsimp only
        congr 1
        refine ih (markSeen s it.unique_id now) (it.unique_id :: kept) ?_
        intro u
        by_cases hu : u = it.unique_id
        · subst hu
          rw [isSeen_markSeen_self]
          simp
        · rw [isSeen_markSeen_other s it.unique_id u now hu, h u]
          have : (it.unique_id :: kept).contains u = kept.contains u := by
            simp only [List.contains_cons]
            have : (u == it.unique_id) = false := by
              simp
              exact hu
            rw [this]
            simp
          rw [this]

/-- **C4.** `filter_unseen` is idempotent over the store state: with the
same input list, the second call returns no items; `mark_seen` on an
already-seen id leaves the store unchanged; within one call the
returned items carry pairwise distinct `unique_id`s; and the returned
list is exactly the items whose uniqueID is unseen in the starting
store, keeping only the FIRST of the items that share a uniqueID — as
the concrete batch with two distinguishable items under one id shows. -/
theorem filterUnseen_idempotent (s : Store) (items : List DItem)
    (now now' t : Int) (uid : String) :
    ((filterUnseen (filterUnseen s items now).2 items now').1 = []) ∧
    (isSeen s uid = true → markSeen s uid t = s) ∧
    ((filterUnseen s items now).1.map DItem.unique_id).Nodup ∧
    ((filterUnseen s items now).1 =
      keepFirstUnseen (fun u => isSeen s u) [] items) ∧
    ((filterUnseen [] [⟨"arxiv:1", "a"⟩, ⟨"arxiv:1", "b"⟩] 0).1 =
      [⟨"arxiv:1", "a"⟩]) := by
  refine ⟨?_, ?_, nodup_filterUnseen s items now,
    filterUnseen_keepFirsts items s (fun u => isSeen s u) [] now (by intro u; simp),
    by decide⟩
  · have hall := allSeen_filterUnseen s items now
    have := filterUnseen_of_allSeen (filterUnseen s items now).2 items now' hall
    rw [this]
  · intro hseen
    unfold markSeen
    have hlk : (List.lookup (sourceOf uid) s).isSome := by
      unfold isSeen at hseen
      cases hlk : List.lookup (sourceOf uid) s with
      | none => rw [hlk] at hseen; cases hseen
      | some es => simp
    have hens : ensureBucket s (sourceOf uid) = s := by
      unfold ensureBucket
      simp [hlk]
    simp only [markSeen, hens, hseen, if_true]

/-- Witness for C4 at a concrete input: a batch with a duplicated id is
filtered to exactly its first occurrence (the payloads distinguish the
two items), and a second identical call returns nothing. -/
theorem filterUnseen_idempotent_witness :
    ((filterUnseen
        (filterUnseen [] [⟨"arxiv:1", "a"⟩, ⟨"arxiv:1", "b"⟩] 0).2
        [⟨"arxiv:1", "a"⟩, ⟨"arxiv:1", "b"⟩] 1).1 = []) ∧
    ((filterUnseen [] [⟨"arxiv:1", "a"⟩, ⟨"arxiv:1", "b"⟩] 0).1 =
      [⟨"arxiv:1", "a"⟩]) := by
  have h := filterUnseen_idempotent [] [⟨"arxiv:1", "a"⟩, ⟨"arxiv:1", "b"⟩] 0 1 0 "arxiv:1"
  exact ⟨h.1, h.2.2.2.2⟩

/-! ### C9: the per-bucket uniqueness invariant -/

theorem bucketsOk_ensureBucket (s : Store) (src : String) :
    BucketsOk s → BucketsOk (ensureBucket s src) := by
  intro h
  unfold ensureBucket
  by_cases hsome : (List.lookup src s).isSome
  · simpa [hsome] using h
  · simp only [hsome, if_false, Bool.false_eq_true]
    intro b hb
    rcases List.mem_append.mp hb with hmem | hmem
    · exact h b hmem
    · have h1 := List.mem_singleton.mp hmem
      subst h1
      simp

theorem bucketsOk_updateAppend (s : List (String × List SeenEntry)) (src : String)
    (e : SeenEntry) :
    (∀ b ∈ s, (b.2.map SeenEntry.id).Nodup) →
    (match List.lookup src s with
     | some es => es.any (fun x => x.id == e.id)
     | none => false) = false →
    ∀ b ∈ updateBucket src (fun es => es ++ [e]) s, (b.2.map SeenEntry.id).Nodup := by
  induction s with
  | nil => intro _ _ b hb; cases hb
  | cons hd rest ih =>
      obtain ⟨k, v⟩ := hd
      intro hok hnot b hb
      by_cases hk : k = src
      · subst hk
        simp only [updateBucket, beq_self_eq_true, if_true] at hb
        rcases List.mem_cons.mp hb with h1 | h1
        · subst h1
          simp only [List.map_append, List.map_cons, List.map_nil]
          rw [List.nodup_append]
          refine ⟨?_, by simp, ?_⟩
          · exact hok (k, v) (by simp)
          · intro x hx
            simp only [List.lookup_cons, beq_self_eq_true] at hnot
            obtain ⟨y, hy, hyx⟩ := List.mem_map.mp hx
            intro hmem
            have hxid : x = e.id := by simpa using hmem
            have hy2 : (y.id == e.id) = true := by simp [hyx, hxid]
            have hany : (v.any fun x => x.id == e.id) = true :=
              List.any_eq_true.mpr ⟨y, hy, by simpa using hy2⟩
            rw [hany] at hnot
            cases hnot
        · exact hok b (List.mem_cons_of_mem _ h1)
      · have hkb : (k == src) = false := by simp [hk]
        simp only [updateBucket, hkb, if_false, Bool.false_eq_true] at hb
        rcases List.mem_cons.mp hb with h1 | h1
        · subst h1
          exact hok (k, v) (by simp)
        · refine ih (fun x hx => hok x (List.mem_cons_of_mem _ hx)) ?_ b h1
          have hsk : (src == k) = false := by
            simp
            exact fun hc => hk hc.symm
          simpa [List.lookup_cons, hsk] using hnot

theorem bucketsOk_markSeen (s : Store) (uid : String) (now : Int) :
    BucketsOk s → BucketsOk (markSeen s uid now) := by
  intro h
  unfold markSeen
  have h1 := bucketsOk_ensureBucket s (sourceOf uid) h
  by_cases hseen : isSeen (ensureBucket s (sourceOf uid)) uid
  · simpa [hseen] using h1
  · simp only [hseen, if_false, Bool.false_eq_true]
    intro b hb
    refine bucketsOk_updateAppend _ _ ⟨uid, now⟩ h1 ?_ b hb
    unfold isSeen at hseen
    simpa using Bool.not_eq_true _ ▸ (by simpa using hseen)

theorem bucketsOk_filterUnseen (s : Store) (items : List DItem) (now : Int) :
    BucketsOk s → BucketsOk (filterUnseen s items now).2 := by
  induction items generalizing s with
  | nil => intro h; simpa [filterUnseen] using h
  | cons hd rest ih =>
      intro h
      by_cases hseen : isSeen s hd.unique_id
      · simpa [filterUnseen, hseen] using ih s h
      · simpa [filterUnseen, hseen] using
          ih (markSeen s hd.unique_id now) (bucketsOk_markSeen s hd.unique_id now h)

/-- **C9.** Any sequence of `mark_seen` / `filter_unseen` operations
preserves the invariant that, within each source bucket, every
`uniqueID` appears at most once. -/
theorem dedup_invariant_preserved (s : Store) (ops : List DedupOp) :
    BucketsOk s → BucketsOk (ops.foldl applyOp s) := by
  induction ops generalizing s with
  | nil => intro h; simpa using h
  | cons op rest ih =>
      intro h
      have hstep : BucketsOk (applyOp s op) := by
        cases op with
        | mark uid now => exact bucketsOk_markSeen s uid now h
        | filt items now => exact bucketsOk_filterUnseen s items now h
      simpa [List.foldl_cons] using ih (applyOp s op) hstep

/-- Witness for C9: a concrete three-operation run starting from a store
with one bucket keeps the invariant. -/
theorem dedup_invariant_preserved_witness :
    BucketsOk (List.foldl applyOp [("arxiv", [⟨"arxiv:0", 0⟩])]
      [DedupOp.mark "arxiv:1" 5, DedupOp.filt [⟨"github:2", ""⟩, ⟨"arxiv:1", ""⟩] 6,
       DedupOp.mark "arxiv:1" 7]) :=
  dedup_invariant_preserved [("arxiv", [⟨"arxiv:0", 0⟩])]
    [DedupOp.mark "arxiv:1" 5, DedupOp.filt [⟨"github:2", ""⟩, ⟨"arxiv:1", ""⟩] 6,
     DedupOp.mark "arxiv:1" 7] (by decide)

/-! ## Keyword scoring (`src/filters/keyword_filter.py`)

Each term of a category is compiled to
`re.compile(r"\b" + re.escape(term) + r"\b", re.IGNORECASE)`; `re.escape`
makes the term a literal, so a pattern matches the text exactly when the
term occurs case-insensitively with a word boundary on both sides.  We
translate that matcher to an executable scan over `List Char` (ASCII
word characters; Python's `\w` restricted to ASCII). -/

/-- Python regex `\w` (ASCII part): letters, digits, underscore. -/
def isWordChar (c : Char) : Bool := c.isAlphanum || c == '_'

/-- Word-character test on an optional character (`none` = text edge). -/
def optWord : Option Char → Bool
  | some c => isWordChar c
  | none => false

/-- The `\b` assertion between a previous and a next character: exactly
one of the two neighbours is a word character. -/
def wordBoundary (prev next : Option Char) : Bool := optWord prev != optWord next

/-- Consume the (nonempty) literal `term` from the text
case-insensitively, returning the last consumed text character and the
rest of the text. -/
def consumeCI : List Char → List Char → Option (Char × List Char)
  | [], _ => none
  | t :: ts, c :: cs =>
      if t.toLower == c.toLower then
        match ts with
        | [] => some (c, cs)
        | _ :: _ => consumeCI ts cs
      else none
  | _ :: _, [] => none

/-- Does `\b term \b` match at the current position?  `prev` is the
character just before the position, `s` the text from the position on. -/
def termMatchAt (prev : Option Char) (term : List Char) (s : List Char) : Bool :=
  match term with
  | [] => wordBoundary prev s.head?
  | _ :: _ =>
      wordBoundary prev s.head? &&
      match consumeCI term s with
      | some (last, rest) => wordBoundary (some last) rest.head?
      | none => false

/-- Scan every position of the text for a match (`pattern.search`). -/
def searchFrom (term : List Char) (prev : Option Char) : List Char → Bool
  | [] => termMatchAt prev term []
  | c :: cs => termMatchAt prev term (c :: cs) || searchFrom term (some c) cs

/-- `pattern.search(text)` for the compiled whole-word case-insensitive
pattern of `term`. -/
def hasMatch (term text : String) : Bool := searchFrom term.toList none text.toList

/-- `KeywordCategory` (weights are Python floats; the configured values
are decimal literals, modelled as rationals). -/
structure KeywordCategory where
  name : String
  weight : ℚ
  terms : List String
deriving DecidableEq

/-- The `cat_matches` loop of `score_text`: how many compiled patterns
(one per entry of `terms`, duplicates kept) match the text. -/
def catMatches (text : String) (cat : KeywordCategory) : ℕ :=
  (cat.terms.filter (fun t => hasMatch t text)).length

/-- Python `round(x, 2)` as a rational with denominator 100 (`round` on
`ℝ` rounds half upward where Python rounds half to even; no value
compared in this file is an exact tie). -/
noncomputable def round2 (x : ℝ) : ℚ := (round (x * 100) : ℤ) / 100

/-- One iteration of the category loop in `score_text`: add
`sqrt(cat_matches) * weight` to the running total and append the
category name when at least one pattern matched. -/
noncomputable def scoreStep (text : String) (acc : ℝ × List String)
    (cat : KeywordCategory) : ℝ × List String :=
  let m := catMatches text cat
  if 0 < m then (acc.1 + Real.sqrt m * (cat.weight : ℝ), acc.2 ++ [cat.name])
  else acc

/-- `score_text`: fold the category loop from `(0.0, [])` and round the
total to two decimals at return. -/
noncomputable def score_text (text : String) (cats : List KeywordCategory) :
    ℚ × List String :=
  let p := cats.foldl (scoreStep text) (0, [])
  (round2 p.1, p.2)

/-! ### Scoring lemmas and C1 -/

theorem scoreStep_fold (text : String) (cats : List KeywordCategory) (a : ℝ)
    (l : List String) :
    cats.foldl (scoreStep text) (a, l) =
      (a + ((cats.filter fun c => 0 < catMatches text c).map
          fun c => Real.sqrt (catMatches text c) * (c.weight : ℝ)).sum,
       l ++ (cats.filter fun c => 0 < catMatches text c).map KeywordCategory.name) := by
  induction cats generalizing a l with
  | nil => simp
  | cons c rest ih =>
      rw [List.foldl_cons]
      by_cases hm : 0 < catMatches text c
      · rw [show scoreStep text (a, l) c =
            (a + Real.sqrt (catMatches text c) * (c.weight : ℝ), l ++ [c.name]) by
            unfold scoreStep; rw [if_pos hm]]
        rw [ih]
        rw [List.filter_cons_of_pos (by simpa using hm)]
        simp [add_assoc]
      · rw [show scoreStep text (a, l) c = (a, l) by unfold scoreStep; rw [if_neg hm]]
        rw [ih]
        rw [List.filter_cons_of_neg (by simpa using hm)]

/-- **C1 (amended).** `score_text` returns, as score, the sum over every
category with at least one matching term entry of
`sqrt(count) × weight` — where `count` is the number of matching entries
of the category's `terms` list counted WITH multiplicity (a duplicated
term contributes twice), a term matching the text several times still
counting once — rounded to 2 decimal places; and, as matched names,
exactly those categories' names in category iteration order. -/
theorem score_text_characterization (text : String) (cats : List KeywordCategory) :
    score_text text cats =
      (round2 (((cats.filter fun c => 0 < catMatches text c).map
          fun c => Real.sqrt (catMatches text c) * (c.weight : ℝ)).sum),
       (cats.filter fun c => 0 < catMatches text c).map KeywordCategory.name) := by
  unfold score_text
  rw [scoreStep_fold]
  simp

/-- The number of DISTINCT terms of the category with at least one
match — the count the specification describes for C1. -/
def distinctMatches (text : String) (cat : KeywordCategory) : ℕ :=
  ((cat.terms.filter (fun t => hasMatch t text)).dedup).length

/-- Modelled from the spec's words (C1): sum of
`sqrt(distinct matched terms) × weight` over the categories with at
least one matched term, rounded to 2 decimals, names in category
iteration order. -/
noncomputable def score_text_spec_distinct (text : String)
    (cats : List KeywordCategory) : ℚ × List String :=
  (round2 (((cats.filter fun c => 0 < distinctMatches text c).map
      fun c => Real.sqrt (distinctMatches text c) * (c.weight : ℝ)).sum),
   (cats.filter fun c => 0 < distinctMatches text c).map KeywordCategory.name)

/-- A category whose `terms` list repeats the same term. -/
def dupCat : KeywordCategory := ⟨"c", 1, ["ai", "ai"]⟩

theorem round2_intCast (n : ℤ) : round2 ((n : ℝ)) = (n : ℚ) := by
  unfold round2
  rw [show ((n : ℝ) * 100) = ((n * 100 : ℤ) : ℝ) by push_cast; ring, round_intCast]
  push_cast
  ring

theorem round2_one : round2 1 = 1 := by
  simpa using round2_intCast 1

theorem round2_sqrt_two : round2 (Real.sqrt 2) = 141 / 100 := by
  have h0 : (0 : ℝ) ≤ 2 := by norm_num
  have hsq := Real.sq_sqrt h0
  have hnn := Real.sqrt_nonneg 2
  unfold round2
  rw [round_eq]
  have hfl : ⌊Real.sqrt 2 * 100 + 1 / 2⌋ = 141 := by
    rw [Int.floor_eq_iff]
    constructor
    · nlinarith
    · nlinarith
  rw [hfl]
  norm_num

/-- **C1 (counterexample).** On the category `⟨"c", weight 1,
terms ["ai", "ai"]⟩` and the text `"ai"`, `score_text` disagrees with
the specification's distinct-term formula: the code counts the
duplicated term twice (`round2 (sqrt 2) = 1.41`), the spec's formula
once (`sqrt 1 = 1`). -/
theorem score_text_ne_spec_distinct :
    score_text "ai" [dupCat] ≠ score_text_spec_distinct "ai" [dupCat] := by
  have h2 : catMatches "ai" dupCat = 2 := by decide
  have h1 : distinctMatches "ai" dupCat = 1 := by decide
  intro heq
  have hL : (score_text "ai" [dupCat]).1 = round2 (Real.sqrt 2) := by
    rw [score_text_characterization]
    have hf : ([dupCat].filter fun c => 0 < catMatches "ai" c) = [dupCat] := by
      simp [List.filter_cons, h2]
    rw [hf]
    simp only [List.map_cons, List.map_nil, List.sum_cons, List.sum_nil, h2]
    norm_num [dupCat]
  have hR : (score_text_spec_distinct "ai" [dupCat]).1 = 1 := by
    unfold score_text_spec_distinct
    have hf : ([dupCat].filter fun c => 0 < distinctMatches "ai" c) = [dupCat] := by
      simp [List.filter_cons, h1]
    rw [hf]
    simp only [List.map_cons, List.map_nil, List.sum_cons, List.sum_nil, h1]
    norm_num [dupCat, Real.sqrt_one, round2_one]
  rw [heq, hR] at hL
  rw [round2_sqrt_two] at hL
  norm_num at hL

/-! ## `filter_items` (C6, C7, C10) -/

/-- An item as `filter_items` handles it.  `ArxivPaper`, `GitHubItem` and
`PwcPaper` carry `title`, `relevance_score`, `matched_categories` and a
subset of the text fields; `getattr(item, f, "")` yields `""` for a
missing field, which an always-present field defaulting to `""` models. -/
structure FItem where
  title : String := ""
  abstract : String := ""
  description : String := ""
  release_body : String := ""
  relevance_score : ℚ := 0
  matched_categories : List String := []
deriving DecidableEq

/-- Python `" ".join(parts)` (the parts list always starts with the
title, so it is never empty). -/
def joinSpace : List String → String
  | [] => ""
  | [s] => s
  | s :: rest => s ++ " " ++ joinSpace rest

/-- The text `filter_items` builds for one item: the title, then each of
`abstract`, `description`, `release_body` appended when truthy
(non-empty), joined with spaces — the `text_parts` loop. -/
def textOf (it : FItem) : String :=
  let parts := [it.title]
  let parts := if it.abstract ≠ "" then parts ++ [it.abstract] else parts
  let parts := if it.description ≠ "" then parts ++ [it.description] else parts
  let parts := if it.release_body ≠ "" then parts ++ [it.release_body] else parts
  joinSpace parts

/-- The `(score, matched)` pair `filter_items` computes for one item. -/
noncomputable def scoreOf (cats : List KeywordCategory) (it : FItem) : ℚ × List String :=
  score_text (textOf it) cats

/-- The then-branch of the threshold test: score and categories assigned
onto the item. -/
noncomputable def assignScored (cats : List KeywordCategory) (it : FItem) : FItem :=
  { it with relevance_score := (scoreOf cats it).1,
            matched_categories := (scoreOf cats it).2 }

/-- The state of one input item after the `filter_items` call: assigned
when the score passes the threshold, untouched otherwise. -/
noncomputable def itemAfterFilter (cats : List KeywordCategory) (min_score : ℚ)
    (it : FItem) : FItem :=
  if min_score ≤ (scoreOf cats it).1 then assignScored cats it else it

/-- The post-call state of the whole input list (the mutation
`filter_items` performs on the items handed to it). -/
noncomputable def filterItemsPost (items : List FItem) (cats : List KeywordCategory)
    (min_score : ℚ) : List FItem :=
  items.map (itemAfterFilter cats min_score)

/-- `filter_items`: keep the items whose score reaches `min_score`
(assigning score and matched categories onto them, in input order), then
`scored.sort(key=..., reverse=True)` — Python's stable descending sort,
modelled by the stable `mergeSort` with the reversed comparison. -/
noncomputable def filter_items (items : List FItem) (cats : List KeywordCategory)
    (min_score : ℚ) : List FItem :=
  let scored := items.foldl
    (fun acc it =>
      if min_score ≤ (scoreOf cats it).1 then acc ++ [assignScored cats it] else acc)
    []
  scored.mergeSort (fun a b => decide (b.relevance_score ≤ a.relevance_score))

theorem foldl_append_filter_map {α β : Type _} (p : α → Prop) [DecidablePred p]
    (f : α → β) (items : List α) (acc : List β) :
    items.foldl (fun acc it => if p it then acc ++ [f it] else acc) acc =
      acc ++ (items.filter (fun it => decide (p it))).map f := by
  induction items generalizing acc with
  | nil => simp
  | cons hd rest ih =>
      by_cases hp : p hd
      · rw [List.foldl_cons, if_pos hp, ih, List.filter_cons_of_pos (by simpa using hp)]
        simp
      · rw [List.foldl_cons, if_neg hp, ih, List.filter_cons_of_neg (by simpa using hp)]

/-- The list `filter_items` sorts: the passing items, assigned, in input
order. -/
noncomputable def scoredList (items : List FItem) (cats : List KeywordCategory)
    (min_score : ℚ) : List FItem :=
  (items.filter (fun it => decide (min_score ≤ (scoreOf cats it).1))).map
    (assignScored cats)

theorem filter_items_eq_mergeSort (items : List FItem) (cats : List KeywordCategory)
    (min_score : ℚ) :
    filter_items items cats min_score =
      (scoredList items cats min_score).mergeSort
        (fun a b => decide (b.relevance_score ≤ a.relevance_score)) := by
  unfold filter_items scoredList
  rw [foldl_append_filter_map (fun it => min_score ≤ (scoreOf cats it).1)
    (assignScored cats) items []]
  rfl

theorem relLe_trans : ∀ a b c : FItem,
    decide (b.relevance_score ≤ a.relevance_score) = true →
    decide (c.relevance_score ≤ b.relevance_score) = true →
    decide (c.relevance_score ≤ a.relevance_score) = true := by
  intro a b c hab hbc
  rw [decide_eq_true_eq] at *
  exact le_trans hbc hab

theorem relLe_total : ∀ a b : FItem,
    (decide (b.relevance_score ≤ a.relevance_score) ||
     decide (a.relevance_score ≤ b.relevance_score)) = true := by
  intro a b
  simpa using le_total b.relevance_score a.relevance_score

/-- **C6.** `filter_items` returns exactly the items whose computed score
reaches `min_score` — each with `relevance_score` and
`matched_categories` assigned — as a permutation of the passing items,
sorted by `relevance_score` descending; the sort is stable: retained
items with equal scores keep their original relative order. -/
theorem filter_items_spec (items : List FItem) (cats : List KeywordCategory)
    (min_score : ℚ) :
    (filter_items items cats min_score).Perm (scoredList items cats min_score) ∧
    (filter_items items cats min_score).Pairwise
      (fun a b => b.relevance_score ≤ a.relevance_score) ∧
    (∀ a b : FItem, a.relevance_score = b.relevance_score →
      [a, b].Sublist (scoredList items cats min_score) →
      [a, b].Sublist (filter_items items cats min_score)) := by
  rw [filter_items_eq_mergeSort]
  refine ⟨List.mergeSort_perm _ _, ?_, ?_⟩
  · have h := List.sorted_mergeSort relLe_trans relLe_total
      (scoredList items cats min_score)
    exact h.imp (fun hab => by simpa using hab)
  · intro a b hab hsub
    refine List.sublist_mergeSort relLe_trans relLe_total ?_ hsub
    exact List.pairwise_cons.mpr
      ⟨by intro b' hb'; rw [List.mem_singleton.mp hb', decide_eq_true_eq, hab],
       by simp⟩

/-- **C10.** `filter_items` leaves an item whose computed score is below
the threshold untouched: its post-call state is its pre-call state, so
`relevance_score` and `matched_categories` keep their old values. -/
theorem filter_items_frame (cats : List KeywordCategory) (min_score : ℚ)
    (it : FItem) (h : (scoreOf cats it).1 < min_score) :
    itemAfterFilter cats min_score it = it := by
  unfold itemAfterFilter
  rw [if_neg (not_le.mpr h)]

theorem score_text_nil_cats (text : String) : score_text text [] = (0, []) := by
  unfold score_text round2
  norm_num

/-- Witness for C10: the empty category list scores every item 0, which
is below a threshold of 1, and the default item is left unchanged. -/
theorem filter_items_frame_witness :
    itemAfterFilter [] 1 {} = ({} : FItem) := by
  refine filter_items_frame [] 1 {} ?_
  unfold scoreOf
  rw [score_text_nil_cats]
  norm_num

/-! ### C7: the text scored per item -/

/-- Modelled from the spec's words for C7: the title concatenated with
the FIRST available (non-empty) of `abstract` / `description` / `body`
only. -/
def textOfSpecFirst (it : FItem) : String :=
  let first :=
    if it.abstract ≠ "" then it.abstract
    else if it.description ≠ "" then it.description
    else it.release_body
  if first = "" then it.title else it.title ++ " " ++ first

/-- An item with both an abstract and a description (as GitHub release
items have both `description` and `release_body` populated). -/
def c7item : FItem := { title := "t", abstract := "alpha", description := "beta" }

def c7cats : List KeywordCategory := [⟨"k", 2, ["beta"]⟩]

/-- **C7 (counterexample).** The text `filter_items` scores is NOT the
title plus only the first available text field: on an item with
`abstract = "alpha"` and `description = "beta"`, the description — a
field after the first available one — changes the score and the matched
categories. -/
theorem textOf_ne_spec_first :
    score_text (textOf c7item) c7cats ≠ score_text (textOfSpecFirst c7item) c7cats := by
  have ht : textOf c7item = "t alpha beta" := by decide
  have hs : textOfSpecFirst c7item = "t alpha" := by decide
  have h1 : catMatches "t alpha beta" ⟨"k", 2, ["beta"]⟩ = 1 := by decide
  have h0 : catMatches "t alpha" ⟨"k", 2, ["beta"]⟩ = 0 := by decide
  rw [ht, hs, score_text_characterization, score_text_characterization]
  intro heq
  have hnames := congrArg Prod.snd heq
  simp only [c7cats] at hnames
  rw [List.filter_cons_of_pos (by simp [h1]),
      List.filter_cons_of_neg (by simp [h0])] at hnames
  simp at hnames

/-- **C7 (amended).** The text `filter_items` scores for an item is the
title concatenated with EVERY available (non-empty) one of `abstract`,
`description`, `release_body`, in that order, space-joined; fields other
than those three never contribute. -/
theorem textOf_characterization (it : FItem) (cats : List KeywordCategory) :
    scoreOf cats it =
      score_text
        (joinSpace ([it.title] ++
          [it.abstract, it.description, it.release_body].filter
            (fun s => decide (s ≠ ""))))
        cats := by
  unfold scoreOf textOf
  congr 2
  by_cases ha : it.abstract = "" <;> by_cases hd : it.description = "" <;>
    by_cases hr : it.release_body = "" <;>
      simp [ha, hd, hr, List.filter_cons, joinSpace]

/-! ## Weekly aggregation (`src/modules/weekly_summary/aggregator.py`) -/

/-- `AggregatedItem` (scores are Python floats, modelled as rationals;
`appearances` is a Python int that the code only ever sets to ≥ 1). -/
structure AggregatedItem where
  title : String
  url : String
  source : String
  relevance_score : ℚ := 0
  matched_categories : List String := []
  description : String := ""
  extra_info : String := ""
  appearances : ℕ := 1
deriving DecidableEq, Repr

/-- The `weighted_score` property:
`relevance_score * (1 + 0.2 * (appearances - 1))`. -/
def weighted_score (it : AggregatedItem) : ℚ :=
  it.relevance_score * (1 + (1 / 5) * ((it.appearances : ℚ) - 1))

/-- The update `aggregate_weekly` applies when an item's url is already
keyed: bump `appearances`, keep the higher score, and append the new
categories that are not in the stored list (the `existing_cats` set is
computed once, before the append loop). -/
def mergeDup (old new : AggregatedItem) : AggregatedItem :=
  { old with
    appearances := old.appearances + 1,
    relevance_score :=
      if old.relevance_score < new.relevance_score then new.relevance_score
      else old.relevance_score,
    matched_categories :=
      old.matched_categories ++
        new.matched_categories.filter
          (fun c => !(old.matched_categories.contains c)) }

/-- One step of the `all_items` dict construction, keyed by `url`. -/
def upsertItem (acc : List AggregatedItem) (item : AggregatedItem) :
    List AggregatedItem :=
  if acc.any (fun e => e.url == item.url) then
    acc.map (fun e => if e.url == item.url then mergeDup e item else e)
  else acc ++ [item]

/-- The merge loop of `aggregate_weekly` over the items parsed from each
document, in document order (`list(all_items.values())` preserves
insertion order, which the association-list representation keeps). -/
def aggregateParsed (docs : List (List AggregatedItem)) : List AggregatedItem :=
  docs.foldl (fun acc parsed => parsed.foldl upsertItem acc) []

/-! ### C2 -/

theorem upsertItem_absent (acc : List AggregatedItem) (item : AggregatedItem)
    (h : ∀ e ∈ acc, e.url ≠ item.url) :
    upsertItem acc item = acc ++ [item] := by
  unfold upsertItem
  rw [if_neg]
  intro hany
  obtain ⟨e, he, heq⟩ := List.any_eq_true.mp hany
  exact h e he (by simpa using heq)

theorem upsertItem_present (pre post : List AggregatedItem)
    (e item : AggregatedItem) (heq : e.url = item.url)
    (hpre : ∀ x ∈ pre, x.url ≠ item.url) :
    upsertItem (pre ++ e :: post) item =
      pre ++ mergeDup e item :: post.map
        (fun x => if x.url == item.url then mergeDup x item else x) := by
  unfold upsertItem
  rw [if_pos (List.any_eq_true.mpr ⟨e, by simp, by simpa using heq⟩)]
  rw [List.map_append]
  congr 1
  · conv_rhs => rw [← List.map_id pre]
    apply List.map_congr_left
    intro x hx
    rw [if_neg (by simpa using hpre x hx)]
    rfl
  · rw [List.map_cons]
    congr 1
    rw [if_pos (by simpa using heq)]

/-- The two-document example of the claim: the same url with scores 1.5
then 3.0 and categories `[A]` then `[B]`. -/
def c2first : AggregatedItem :=
  { title := "X", url := "http://u", source := "arxiv",
    relevance_score := 3 / 2, matched_categories := ["A"] }

def c2second : AggregatedItem :=
  { title := "X", url := "http://u", source := "arxiv",
    relevance_score := 3, matched_categories := ["B"] }

/-- **C2.** The weekly merge keys items by url: a first occurrence is
inserted as-is; a later occurrence with an already-keyed url updates
exactly the stored entry — `appearances + 1`, `relevance_score` replaced
by the maximum, and the new categories not already stored appended in
order (`existing_cats` is the stored list, snapshotted before the
appends).  In particular, documents `[{1.5, [A]}]` then `[{3.0, [B]}]`
with one shared url merge to `appearances = 2`, `relevance_score = 3`,
`matched_categories = [A, B]` and `weighted_score = 3 × 1.2 = 3.6`. -/
theorem aggregate_merge_spec (acc pre post : List AggregatedItem)
    (e item : AggregatedItem) :
    ((∀ x ∈ acc, x.url ≠ item.url) → upsertItem acc item = acc ++ [item]) ∧
    (e.url = item.url → (∀ x ∈ pre, x.url ≠ item.url) →
      (∀ x ∈ post, x.url ≠ item.url) →
      upsertItem (pre ++ e :: post) item = pre ++ mergeDup e item :: post) ∧
    (mergeDup e item).appearances = e.appearances + 1 ∧
    (mergeDup e item).relevance_score = max e.relevance_score item.relevance_score ∧
    (mergeDup e item).matched_categories =
      e.matched_categories ++
        item.matched_categories.filter (fun c => !(e.matched_categories.contains c)) ∧
    aggregateParsed [[c2first], [c2second]] =
      [{ title := "X", url := "http://u", source := "arxiv",
         relevance_score := 3, matched_categories := ["A", "B"],
         appearances := 2 }] ∧
    weighted_score
        { title := "X", url := "http://u", source := "arxiv",
          relevance_score := 3, matched_categories := ["A", "B"],
          appearances := 2 } = 18 / 5 := by
  refine ⟨upsertItem_absent acc item, ?_, rfl, ?_, rfl, ?_, ?_⟩
  · intro heq hpre hpost
    have hmap : post.map (fun x => if x.url == item.url then mergeDup x item else x)
        = post := by
      conv_rhs => rw [← List.map_id post]
      apply List.map_congr_left
      intro x hx
      rw [if_neg (by simpa using hpost x hx)]
      rfl
    rw [upsertItem_present pre post e item heq hpre, hmap]
  · unfold mergeDup
    rcases lt_or_ge e.relevance_score item.relevance_score with h | h
    · simp [h, max_eq_right (le_of_lt h)]
    · simp [not_lt.mpr h, max_eq_left h]
  · unfold aggregateParsed
    simp only [List.foldl_cons, List.foldl_nil]
    rw [upsertItem_absent [] c2first (by intro x hx; cases hx), List.nil_append]
    have hup := upsertItem_present [] [] c2first c2second rfl (by intro x hx; cases hx)
    simp only [List.nil_append, List.map_nil] at hup
    rw [hup]
    rw [show mergeDup c2first c2second =
        { title := "X", url := "http://u", source := "arxiv",
          relevance_score := if (3 / 2 : ℚ) < 3 then 3 else 3 / 2,
          matched_categories := ["A", "B"], appearances := 2 } from rfl]
    rw [if_pos (by norm_num : (3 / 2 : ℚ) < 3)]
  · unfold weighted_score
    norm_num

/-! ## Ranker (`src/modules/weekly_summary/ranker.py`) -/

/-- The composite sort key of `rank_items`:
`(weighted_score, len(matched_categories), appearances)`, compared
lexicographically as Python compares tuples. -/
def rankKey (it : AggregatedItem) : Lex (ℚ × Lex (ℕ × ℕ)) :=
  toLex (weighted_score it, toLex (it.matched_categories.length, it.appearances))

/-- The comparison the model sorts by: Python's stable
`sorted(key=..., reverse=True)` is the stable sort by the reversed
(descending) key comparison. -/
def rankLe (a b : AggregatedItem) : Bool := decide (rankKey b ≤ rankKey a)

/-- `rank_items`: sort by the composite key descending (stable) and keep
the first `top_n`. -/
def rank_items (items : List AggregatedItem) (top_n : ℕ) : List AggregatedItem :=
  (items.mergeSort rankLe).take top_n

theorem rankLe_trans : ∀ a b c : AggregatedItem,
    rankLe a b = true → rankLe b c = true → rankLe a c = true := by
  intro a b c hab hbc
  unfold rankLe at *
  rw [decide_eq_true_eq] at *
  exact le_trans hbc hab

theorem rankLe_total : ∀ a b : AggregatedItem,
    (rankLe a b || rankLe b a) = true := by
  intro a b
  unfold rankLe
  simpa using le_total (rankKey b) (rankKey a)

theorem perm_pair_eq {α : Type _} {l : List α} {a b : α} (h : l.Perm [a, b]) :
    l = [a, b] ∨ l = [b, a] := by
  have hlen : l.length = 2 := by simpa using h.length_eq
  obtain ⟨x, y, rfl⟩ := List.length_eq_two.mp hlen
  have hx : x ∈ [a, b] := h.mem_iff.mp (by simp)
  have hy : y ∈ [a, b] := h.mem_iff.mp (by simp)
  have ha : a ∈ [x, y] := h.mem_iff.mpr (by simp)
  have hb : b ∈ [x, y] := h.mem_iff.mpr (by simp)
  simp only [List.mem_cons, List.mem_singleton, List.not_mem_nil, or_false] at hx hy ha hb
  rcases hx with hx | hx <;> rcases hy with hy | hy
  · subst hx
    subst hy
    rcases hb with hb | hb
    · left
      rw [hb]
    · left
      rw [hb]
  · subst hx
    subst hy
    left
    rfl
  · subst hx
    subst hy
    right
    rfl
  · subst hx
    subst hy
    rcases ha with ha | ha
    · left
      rw [ha]
    · left
      rw [ha]

/-- Two items with equal `weighted_score`: one topic category. -/
def c5one : AggregatedItem :=
  { title := "p", url := "u1", source := "arxiv",
    relevance_score := 2, matched_categories := ["A"] }

/-- Two items with equal `weighted_score`: two topic categories. -/
def c5two : AggregatedItem :=
  { title := "q", url := "u2", source := "arxiv",
    relevance_score := 2, matched_categories := ["A", "B"] }

theorem weighted_c5one : weighted_score c5one = 2 := by
  unfold weighted_score c5one
  norm_num

theorem weighted_c5two : weighted_score c5two = 2 := by
  unfold weighted_score c5two
  norm_num

theorem rankLe_c5 : rankLe c5one c5two = false := by
  unfold rankLe
  rw [decide_eq_false_iff_not]
  unfold rankKey
  rw [Prod.Lex.le_iff]
  rintro (h | ⟨h1, h2⟩)
  · rw [weighted_c5one, weighted_c5two] at h
    exact lt_irrefl _ h
  · rw [Prod.Lex.le_iff] at h2
    simp only [c5one, c5two, List.length_cons, List.length_singleton,
      List.length_nil] at h2
    omega

/-- **C5.** The full sort underlying `rank_items` is a permutation of the
input, sorted by the composite key
`(weighted_score desc, #matched_categories desc, appearances desc)`,
stable on ties (equal-key items keep their input order); `rank_items`
returns its first `top_n` entries without touching the input list (the
model is pure).  Concretely, of two items with equal `weighted_score`
the one with more matched categories ranks first. -/
theorem rank_items_spec (items : List AggregatedItem) (n : ℕ) :
    (items.mergeSort rankLe).Perm items ∧
    (items.mergeSort rankLe).Pairwise (fun a b => rankKey b ≤ rankKey a) ∧
    (∀ a b : AggregatedItem, rankKey a = rankKey b → [a, b].Sublist items →
      [a, b].Sublist (items.mergeSort rankLe)) ∧
    rank_items items n = (items.mergeSort rankLe).take n ∧
    rank_items [c5one, c5two] 2 = [c5two, c5one] := by
  refine ⟨List.mergeSort_perm _ _, ?_, ?_, rfl, ?_⟩
  · have h := List.sorted_mergeSort rankLe_trans rankLe_total items
    exact h.imp (fun hab => by simpa [rankLe] using hab)
  · intro a b hab hsub
    refine List.sublist_mergeSort rankLe_trans rankLe_total ?_ hsub
    refine List.pairwise_cons.mpr ⟨?_, by simp⟩
    intro b' hb'
    rw [List.mem_singleton.mp hb']
    unfold rankLe
    rw [decide_eq_true_eq, hab]
  · unfold rank_items
    have hperm := List.mergeSort_perm [c5one, c5two] rankLe
    rcases perm_pair_eq hperm with hcase | hcase
    · exfalso
      have hsorted := List.sorted_mergeSort rankLe_trans rankLe_total [c5one, c5two]
      rw [hcase] at hsorted
      have h12 := List.pairwise_cons.mp hsorted
      have := h12.1 c5two (by simp)
      rw [rankLe_c5] at this
      cases this
    · rw [hcase]
      rfl

/-! ## Weekly reconstruction parser (`_parse_issue_body`)

The regexes of `_parse_issue_body` are translated to executable matchers
over `List Char`.  Each pattern is simple enough to be deterministic at
a given position (after a greedy `\s*` or `\d+`, the following literal
can never be part of the greedy class), except the optional pieces
(`###?`, `Topics?`, and `\s*` before `[^\n|]+`), for which the
translation tries the greedy alternative first, as Python's engine does. -/

end Updater
